import Mathlib

/-!
Shallow embedding of the fanout dispatch and delivery engine of the
buzzrelay repository (src/relay.rs, src/activitypub.rs), together with
theorems settling the specification claims about it.

The embedding follows the source:
* `Post`, `Tag` mirror the serde structs at src/relay.rs lines 12-17 and 59-62;
  `parsePost` embeds serde's derived deserialization over a small JSON value
  type.
* `Post.host`, `Post.tags`, `Post.relay_target_kinds`, `Post.relay_targets`
  mirror the methods at src/relay.rs lines 19-57.  URL parsing is performed by
  the external `reqwest` crate, so the domain extractor is a parameter
  `urlDomain : String → Option String` standing for
  `reqwest::Url::parse(u).ok().and_then(|url| url.domain())`; the
  `str::to_lowercase` step stays in the embedding.
* The dispatcher loop body of `spawn` (src/relay.rs lines 126-191) becomes
  `processPost` / `processTargets` / `processInboxes`, with the follower store
  `database.get_following_inboxes` a parameter.  `processTargetsE` /
  `processPostE` / `processStreamE` embed the same loop with a fallible
  follower store, where the source's `.unwrap()` at line 164 becomes error
  propagation that kills the whole stream loop.
* The per-inbox delivery worker loop of `spawn_worker`
  (src/relay.rs lines 72-112) becomes the step function `workerStep` on
  `WorkerState`.
-/

namespace Buzzrelay

/-- A JSON value, the data serde_json deserializes `Post` from and
serializes the Announce activity to. -/
inductive Json where
  | null : Json
  | bool (b : Bool) : Json
  | num (n : Int) : Json
  | str (s : String) : Json
  | arr (elems : List Json) : Json
  | obj (fields : List (String × Json)) : Json
deriving Repr, BEq

/-- First value bound to key `k` in an object's field list. -/
def jsonLookup (fields : List (String × Json)) (k : String) : Option Json :=
  match fields with
  | [] => none
  | (k', v) :: rest => if k' = k then some v else jsonLookup rest k

/-- Field access on a deserialized JSON value: the first binding of key `k`
when the value is an object. -/
def Json.getField (j : Json) (k : String) : Option Json :=
  match j with
  | Json.obj fields => jsonLookup fields k
  | _ => none

/-- Rust struct `Tag` with its borrowed string field `name`
(src/relay.rs lines 59-62). -/
structure Tag where
  name : String
deriving Repr, DecidableEq

/-- Rust struct `Post` with fields `url: Option<&str>`, `uri: &str` and
`tags: Option<Vec<Tag>>` (src/relay.rs lines 12-17). -/
structure Post where
  url : Option String
  uri : String
  tags : Option (List Tag)
deriving Repr, DecidableEq

/-- serde semantics of a field of type `Option<&str>`: a missing field or a
JSON `null` gives `None`, a JSON string gives `Some`, anything else is a
deserialization error. -/
def parseOptStrField (v : Option Json) : Option (Option String) :=
  match v with
  | none => some none
  | some Json.null => some none
  | some (Json.str s) => some (some s)
  | some _ => none

/-- serde semantics of a required `&str` field: it must be present and a
JSON string. -/
def parseStrField (v : Option Json) : Option String :=
  match v with
  | some (Json.str s) => some s
  | _ => none

/-- Derived `Deserialize` for `Tag`: an object with a required string field
`name`; unknown fields are ignored, duplicate fields rejected. -/
def parseTag (j : Json) : Option Tag :=
  match j with
  | Json.obj fields =>
    if (fields.map Prod.fst).Nodup then
      (parseStrField (jsonLookup fields "name")).map Tag.mk
    else none
  | _ => none

/-- serde semantics of the `tags: Option<Vec<Tag>>` field: missing or `null`
gives `None`, an array gives `Some` of the element-wise parse, anything else
is an error. -/
def parseTagsField (v : Option Json) : Option (Option (List Tag)) :=
  match v with
  | none => some none
  | some Json.null => some none
  | some (Json.arr elems) => (elems.mapM parseTag).map some
  | some _ => none

/-- Derived `Deserialize` for `Post` (the `serde_json::from_str` call at
src/relay.rs line 128, after JSON lexing): an object with fields `url`
(optional string), `uri` (required string), `tags` (optional array of tags);
unknown fields ignored, duplicate fields rejected. -/
def parsePost (j : Json) : Option Post :=
  match j with
  | Json.obj fields =>
    if (fields.map Prod.fst).Nodup then
      match parseOptStrField (jsonLookup fields "url"),
            parseStrField (jsonLookup fields "uri"),
            parseTagsField (jsonLookup fields "tags") with
      | some url, some uri, some tags => some ⟨url, uri, tags⟩
      | _, _, _ => none
    else none
  | _ => none

/-- Rust enum `ActorKind` with variants `InstanceRelay` and `HashtagRelay`.
Modelled from the spec: the `actor` module is outside the provided sources;
§3 describes `RelayIdentity` as a "tagged union of `InstanceRelay(host)` and
`HashtagRelay(tag)`", with equality and hashing by (variant, value). -/
inductive ActorKind where
  | InstanceRelay (host : String) : ActorKind
  | HashtagRelay (tag : String) : ActorKind
deriving Repr, DecidableEq

/-- The constructor helper `ActorKind::from_tag`.  Modelled from the spec: the `actor` module is
outside the provided sources; §4.1 step 3 says the resolver emits
"`HashtagRelay(tag)` for every tag name in `tags`". -/
def ActorKind.from_tag (s : String) : ActorKind :=
  ActorKind.HashtagRelay s

/-- Rust struct `Actor` with fields `host` and `kind`.  Modelled from the spec: the `actor`
module is outside the provided sources; `Post::relay_targets`
(src/relay.rs lines 50-56) builds it from the relay's own hostname and an
`ActorKind`, and dedup compares whole `Actor` values. -/
structure Actor where
  host : String
  kind : ActorKind
deriving Repr, DecidableEq

/-- The method `Post::host` (src/relay.rs lines 20-26): `reqwest::Url::parse(self.url?)
.ok().and_then(|url| url.domain().map(str::to_lowercase))`.  `urlDomain`
stands for the external parse-and-extract-domain step. -/
def Post.host (urlDomain : String → Option String) (p : Post) : Option String :=
  p.url.bind fun u => (urlDomain u).map String.toLower

/-- The method `Post::tags` (src/relay.rs lines 28-37): the tag names, or `[]` when the
field was absent. -/
def Post.tagNames (p : Post) : List String :=
  match p.tags with
  | none => []
  | some tags => tags.map Tag.name

/-- The method `Post::relay_target_kinds` (src/relay.rs lines 39-48): the instance-relay
kind from `host()` (when present) chained with `from_tag` of every tag
name. -/
def Post.relay_target_kinds (urlDomain : String → Option String) (p : Post) :
    List ActorKind :=
  ((p.host urlDomain).toList.map ActorKind.InstanceRelay)
    ++ (p.tagNames.map fun s => ActorKind.from_tag s)

/-- The method `Post::relay_targets` (src/relay.rs lines 50-56): each kind paired with
the relay's own hostname. -/
def Post.relay_targets (urlDomain : String → Option String) (hostname : String)
    (p : Post) : List Actor :=
  (p.relay_target_kinds urlDomain).map fun kind => Actor.mk hostname kind

/-- Spec-side description of the resolver output (§4.1): `InstanceRelay`
of the extracted domain first, when extraction succeeded, then one
`HashtagRelay` per tag name in input order, with no deduplication. -/
def specResolverTargets (domain : Option String) (tagNames : List String) :
    List ActorKind :=
  (match domain with
   | some d => [ActorKind.InstanceRelay d]
   | none => []) ++ tagNames.map ActorKind.HashtagRelay

/-- One unit of fanout work: the source's `Job` (src/relay.rs lines 64-70)
routed to the worker for one inbox (src/relay.rs lines 170-179).  The source
job stores `post_url`, `actor_id = actor.uri()`, the serialized Announce
`body` (see `announceBody`), `key_id = actor.key_id()` and the shared private
key; `actor_id`, `body` and `key_id` are all derived from the `actor` value
and the post, so the embedding records the `actor` itself, together with the
inbox the job is submitted under (the `workers` map key). -/
structure Delivery where
  inbox : String
  actor : Actor
  post_url : String
deriving Repr, DecidableEq

/-- The Announce activity body built per relay identity
(src/relay.rs lines 152-159):
`json!({"@context": ..., "type": "Announce", "actor": *actor_id,
"to": [...#Public], "object": &post.uri, "id": *post_url})`. -/
def announceBody (actor_id postUri postUrl : String) : Json :=
  Json.obj
    [("@context", Json.str "https://www.w3.org/ns/activitystreams"),
     ("type", Json.str "Announce"),
     ("actor", Json.str actor_id),
     ("to", Json.arr [Json.str "https://www.w3.org/ns/activitystreams#Public"]),
     ("object", Json.str postUri),
     ("id", Json.str postUrl)]

/-- The inner inbox loop of the dispatcher (src/relay.rs lines 164-180) for
one actor whose follower lookup returned `inboxes`: each inbox not yet in
`seenInboxes` is marked seen and yields one job routed to its worker.
The `HashSet` of seen inboxes is modelled as a list queried by
membership. -/
def processInboxes (actor : Actor) (post_url : String) :
    List String → List String → List Delivery → List String × List Delivery
  | [], seenInboxes, jobs => (seenInboxes, jobs)
  | inbox :: rest, seenInboxes, jobs =>
    if seenInboxes.contains inbox then
      processInboxes actor post_url rest seenInboxes jobs
    else
      processInboxes actor post_url rest (inbox :: seenInboxes)
        (jobs ++ [Delivery.mk inbox actor post_url])

/-- The actor loop of the dispatcher (src/relay.rs lines 146-183) with an
infallible follower store `lookup` (the success path of
`database.get_following_inboxes(&actor.uri())`): actors already in
`seenActors` are skipped, otherwise their follower inboxes are processed and
the actor is marked seen.  Returns the final seen-inbox set and the produced
jobs. -/
def processTargets (lookup : Actor → List String) (post_url : String) :
    List Actor → List Actor → List String → List Delivery →
    List String × List Delivery
  | [], _, seenInboxes, jobs => (seenInboxes, jobs)
  | actor :: rest, seenActors, seenInboxes, jobs =>
    if seenActors.contains actor then
      processTargets lookup post_url rest seenActors seenInboxes jobs
    else
      let r := processInboxes actor post_url (lookup actor) seenInboxes jobs
      processTargets lookup post_url rest (actor :: seenActors) r.1 r.2

/-- The per-notification body of the dispatcher loop
(src/relay.rs lines 136-190) for an already-parsed post: an absent `url`
increments the `skip` counter and produces nothing; otherwise the targets
are processed and `no_relay` or `relay` is incremented according to whether
`seen_inboxes` ended empty.  The first component lists the incremented
`relay_posts_total` counter actions, in order. -/
def processPost (urlDomain : String → Option String) (lookup : Actor → List String)
    (hostname : String) (p : Post) : List String × List Delivery :=
  match p.url with
  | none => (["skip"], [])
  | some url =>
    let r := processTargets lookup url (p.relay_targets urlDomain hostname) [] [] []
    ((if r.1.isEmpty then ["no_relay"] else ["relay"]), r.2)

/-- The actor loop with a fallible follower store: the `.unwrap()` at
src/relay.rs line 164 turns a lookup error into a panic of the dispatcher
task, embedded as error propagation. -/
def processTargetsE (lookup : Actor → Except Unit (List String)) (post_url : String) :
    List Actor → List Actor → List String → List Delivery →
    Except Unit (List String × List Delivery)
  | [], _, seenInboxes, jobs => Except.ok (seenInboxes, jobs)
  | actor :: rest, seenActors, seenInboxes, jobs =>
    if seenActors.contains actor then
      processTargetsE lookup post_url rest seenActors seenInboxes jobs
    else
      match lookup actor with
      | Except.error e => Except.error e
      | Except.ok inboxes =>
        let r := processInboxes actor post_url inboxes seenInboxes jobs
        processTargetsE lookup post_url rest (actor :: seenActors) r.1 r.2

/-- Per-notification processing with a fallible follower store. -/
def processPostE (urlDomain : String → Option String)
    (lookup : Actor → Except Unit (List String)) (hostname : String) (p : Post) :
    Except Unit (List String × List Delivery) :=
  match p.url with
  | none => Except.ok (["skip"], [])
  | some url =>
    (processTargetsE lookup url (p.relay_targets urlDomain hostname) [] [] []).map
      fun r => ((if r.1.isEmpty then ["no_relay"] else ["relay"]), r.2)

/-- The dispatcher stream loop (src/relay.rs lines 126-191) over a list of
raw payloads: a parse failure drops the item and continues; a follower-store
error kills the whole task, so nothing after it is processed. -/
def processStreamE (urlDomain : String → Option String)
    (lookup : Actor → Except Unit (List String)) (hostname : String) :
    List Json → Except Unit (List (List String × List Delivery))
  | [] => Except.ok []
  | j :: rest =>
    match parsePost j with
    | none => processStreamE urlDomain lookup hostname rest
    | some p =>
      match processPostE urlDomain lookup hostname p with
      | Except.error e => Except.error e
      | Except.ok out =>
        (processStreamE urlDomain lookup hostname rest).map fun outs => out :: outs

/-- Value of `u32::MAX`, the saturation bound of the worker error counter. -/
def u32Max : Nat := 4294967295

/-- Nanoseconds per second; `Instant` values are embedded as nanosecond
counts of a monotonic clock, so `Duration::from_secs(10) * errors` becomes
`10 * nanosPerSec * errors`. -/
def nanosPerSec : Nat := 1000000000

/-- The delivery worker's state (src/relay.rs lines 76-77):
`errors: u32` (embedded as a `Nat` kept ≤ `u32Max` by the step function) and
`last_request: Option<Instant>`. -/
structure WorkerState where
  errors : Nat
  last_request : Option Nat
deriving Repr, DecidableEq

/-- Initial worker state: `errors = 0`, `last_request = None`. -/
def WorkerState.init : WorkerState := WorkerState.mk 0 none

/-- The backoff gate condition (src/relay.rs lines 80-82):
`errors > 0 && last_request.map_or(false, |last| now - last <
Duration::from_secs(10) * errors)`.  `Instant` subtraction saturates at
zero, matching `Nat` subtraction. -/
def backoffGate (st : WorkerState) (now : Nat) : Bool :=
  decide (st.errors > 0) &&
    (match st.last_request with
     | some last => decide (now - last < 10 * nanosPerSec * st.errors)
     | none => false)

/-- One iteration of the worker loop (src/relay.rs lines 79-105) for a job
arriving at time `now`, where `sendOk` tells whether `send::send_raw`
succeeded.  Returns the new state and whether a delivery was attempted:
gated jobs are dropped with no attempt (`continue`); otherwise
`last_request` is set to `now` and the error counter is reset on success or
saturating-incremented on failure. -/
def workerStep (st : WorkerState) (now : Nat) (sendOk : Bool) :
    WorkerState × Bool :=
  if backoffGate st now then
    (st, false)
  else if sendOk then
    (WorkerState.mk 0 (some now), true)
  else
    (WorkerState.mk (min (st.errors + 1) u32Max) (some now), true)

/-! ### Helper lemmas about the dispatcher loops -/

theorem find_agree {α} {p q : α → Bool} :
    ∀ l : List α, (∀ x ∈ l, p x = q x) → l.find? p = l.find? q := by
  intro l
  induction l with
  | nil => intro _; rfl
  | cons x xs ih =>
    intro h
    have hx := h x (List.mem_cons_self x xs)
    simp only [List.find?]
    rw [hx]
    cases q x with
    | true => rfl
    | false => exact ih fun y hy => h y (List.mem_cons_of_mem x hy)

theorem processInboxes_mem_fst (a : Actor) (pu : String) :
    ∀ (inboxes seen : List String) (jobs : List Delivery) (x : String),
      x ∈ (processInboxes a pu inboxes seen jobs).1 ↔ x ∈ seen ∨ x ∈ inboxes := by
  intro inboxes
  induction inboxes with
  | nil => intro seen jobs x; simp [processInboxes]
  | cons i rest ih =>
    intro seen jobs x
    by_cases h : i ∈ seen
    · have hc : seen.contains i = true := List.elem_iff.mpr h
      simp only [processInboxes, hc, if_true, ih]
      constructor
      · rintro (hs | hr)
        · exact Or.inl hs
        · exact Or.inr (List.mem_cons_of_mem i hr)
      · rintro (hs | hr)
        · exact Or.inl hs
        · rcases List.mem_cons.mp hr with heq | hr
          · exact Or.inl (heq ▸ h)
          · exact Or.inr hr
    · have hc : seen.contains i = false := by
        simpa using fun hmem => h (List.elem_iff.mp hmem)
      simp only [processInboxes, hc, Bool.false_eq_true, if_false, ih]
      simp only [List.mem_cons]
      tauto

theorem processInboxes_countP (a : Actor) (pu : String) (I : String) :
    ∀ (inboxes seen : List String) (jobs : List Delivery),
      (processInboxes a pu inboxes seen jobs).2.countP (fun j => j.inbox == I)
        = jobs.countP (fun j => j.inbox == I)
            + (if I ∉ seen ∧ I ∈ inboxes then 1 else 0) := by
  intro inboxes
  induction inboxes with
  | nil => intro seen jobs; simp [processInboxes]
  | cons i rest ih =>
    intro seen jobs
    by_cases h : i ∈ seen
    · have hc : seen.contains i = true := List.elem_iff.mpr h
      have hiff : (I ∉ seen ∧ I ∈ rest) ↔ (I ∉ seen ∧ I ∈ i :: rest) := by
        simp only [List.mem_cons]
        constructor
        · rintro ⟨hn, hr⟩; exact ⟨hn, Or.inr hr⟩
        · rintro ⟨hn, hir | hr⟩
          · exact absurd (hir ▸ h) hn
          · exact ⟨hn, hr⟩
      simp only [processInboxes, hc, if_true, ih]
      rw [if_congr hiff rfl rfl]
    · have hc : seen.contains i = false := by
        simpa using fun hmem => h (List.elem_iff.mp hmem)
      simp only [processInboxes, hc, Bool.false_eq_true, if_false, ih]
      rw [List.countP_append]
      by_cases hI : I = i
      · subst hI
        have hyes : (I ∉ seen ∧ I ∈ I :: rest) := ⟨h, List.mem_cons_self I rest⟩
        have hno : ¬(I ∉ I :: seen ∧ I ∈ rest) := by simp
        rw [if_pos hyes, if_neg hno]
        simp [List.countP_cons]
      · have hb : ((Delivery.mk i a pu).inbox == I) = false := by
          simp only [beq_iff_eq]
          simpa using fun hiI => hI hiI.symm
        have hiff : (I ∉ i :: seen ∧ I ∈ rest) ↔ (I ∉ seen ∧ I ∈ i :: rest) := by
          simp only [List.mem_cons]
          tauto
        simp only [List.countP_cons, List.countP_nil, hb, Bool.false_eq_true, if_false]
        rw [if_congr hiff rfl rfl]
        omega


theorem processInboxes_mem_snd (a : Actor) (pu : String) :
    ∀ (inboxes seen : List String) (jobs : List Delivery) (j : Delivery),
      j ∈ (processInboxes a pu inboxes seen jobs).2 →
        j ∈ jobs ∨ (j.actor = a ∧ j.post_url = pu ∧ j.inbox ∈ inboxes ∧ j.inbox ∉ seen) := by
  intro inboxes
  induction inboxes with
  | nil => intro seen jobs j hj; exact Or.inl hj
  | cons i rest ih =>
    intro seen jobs j hj
    by_cases h : i ∈ seen
    · have hc : seen.contains i = true := List.elem_iff.mpr h
      simp only [processInboxes, hc, if_true] at hj
      rcases ih seen jobs j hj with hl | ⟨ha, hp, hin, hns⟩
      · exact Or.inl hl
      · exact Or.inr ⟨ha, hp, List.mem_cons_of_mem i hin, hns⟩
    · have hc : seen.contains i = false := by
        simpa using fun hmem => h (List.elem_iff.mp hmem)
      simp only [processInboxes, hc, Bool.false_eq_true, if_false] at hj
      rcases ih (i :: seen) (jobs ++ [Delivery.mk i a pu]) j hj with hl | ⟨ha, hp, hin, hns⟩
      · rcases List.mem_append.mp hl with hj0 | hj1
        · exact Or.inl hj0
        · have : j = Delivery.mk i a pu := by simpa using hj1
          subst this
          exact Or.inr ⟨rfl, rfl, List.mem_cons_self i rest, h⟩
      · have hni : j.inbox ∉ seen := fun hm => hns (List.mem_cons_of_mem i hm)
        exact Or.inr ⟨ha, hp, List.mem_cons_of_mem i hin, hni⟩

theorem processTargets_mem_fst (lookup : Actor → List String) (pu : String) :
    ∀ (actors seenA : List Actor) (seen : List String) (jobs : List Delivery) (x : String),
      x ∈ (processTargets lookup pu actors seenA seen jobs).1 ↔
        x ∈ seen ∨ ∃ a ∈ actors, a ∉ seenA ∧ x ∈ lookup a := by
  intro actors
  induction actors with
  | nil => intro seenA seen jobs x; simp [processTargets]
  | cons a rest ih =>
    intro seenA seen jobs x
    by_cases h : a ∈ seenA
    · have hc : seenA.contains a = true := List.elem_iff.mpr h
      simp only [processTargets, hc, if_true, ih]
      constructor
      · rintro (hs | ⟨b, hb, hbs, hbl⟩)
        · exact Or.inl hs
        · exact Or.inr ⟨b, List.mem_cons_of_mem a hb, hbs, hbl⟩
      · rintro (hs | ⟨b, hb, hbs, hbl⟩)
        · exact Or.inl hs
        · rcases List.mem_cons.mp hb with heq | hb
          · exact absurd (heq ▸ h) hbs
          · exact Or.inr ⟨b, hb, hbs, hbl⟩
    · have hc : seenA.contains a = false := by
        simpa using fun hmem => h (List.elem_iff.mp hmem)
      simp only [processTargets, hc, Bool.false_eq_true, if_false, ih]
      rw [processInboxes_mem_fst]
      constructor
      · rintro ((hs | hla) | ⟨b, hb, hbs, hbl⟩)
        · exact Or.inl hs
        · exact Or.inr ⟨a, List.mem_cons_self a rest, h, hla⟩
        · have hbs2 : b ∉ seenA := fun hm => hbs (List.mem_cons_of_mem a hm)
          exact Or.inr ⟨b, List.mem_cons_of_mem a hb, hbs2, hbl⟩
      · rintro (hs | ⟨b, hb, hbs, hbl⟩)
        · exact Or.inl (Or.inl hs)
        · rcases List.mem_cons.mp hb with heq | hb
          · exact Or.inl (Or.inr (heq ▸ hbl))
          · by_cases hba : b = a
            · exact Or.inl (Or.inr (hba ▸ hbl))
            · have hbn : b ∉ a :: seenA := by
                intro hm
                rcases List.mem_cons.mp hm with h1 | h2
                · exact hba h1
                · exact hbs h2
              exact Or.inr ⟨b, hb, hbn, hbl⟩

theorem processTargets_countP (lookup : Actor → List String) (pu : String) (I : String) :
    ∀ (actors seenA : List Actor) (seen : List String) (jobs : List Delivery),
      (processTargets lookup pu actors seenA seen jobs).2.countP (fun j => j.inbox == I)
        = jobs.countP (fun j => j.inbox == I)
            + (if I ∉ seen ∧ ∃ a ∈ actors, a ∉ seenA ∧ I ∈ lookup a then 1 else 0) := by
  intro actors
  induction actors with
  | nil => intro seenA seen jobs; simp [processTargets]
  | cons a rest ih =>
    intro seenA seen jobs
    by_cases h : a ∈ seenA
    · have hc : seenA.contains a = true := List.elem_iff.mpr h
      have hiff : (I ∉ seen ∧ ∃ b ∈ rest, b ∉ seenA ∧ I ∈ lookup b)
          ↔ (I ∉ seen ∧ ∃ b ∈ a :: rest, b ∉ seenA ∧ I ∈ lookup b) := by
        constructor
        · rintro ⟨hn, b, hb, hbs, hbl⟩
          exact ⟨hn, b, List.mem_cons_of_mem a hb, hbs, hbl⟩
        · rintro ⟨hn, b, hb, hbs, hbl⟩
          rcases List.mem_cons.mp hb with heq | hb
          · exact absurd (heq ▸ h) hbs
          · exact ⟨hn, b, hb, hbs, hbl⟩
      simp only [processTargets, hc, if_true, ih]
      rw [if_congr hiff rfl rfl]
    · have hc : seenA.contains a = false := by
        simpa using fun hmem => h (List.elem_iff.mp hmem)
      simp only [processTargets, hc, Bool.false_eq_true, if_false, ih]
      rw [processInboxes_countP]
      by_cases hn : I ∈ seen
      · have h1 : ¬(I ∉ seen ∧ I ∈ lookup a) := fun hx => hx.1 hn
        have h3 : ¬(I ∉ seen ∧ ∃ b ∈ a :: rest, b ∉ seenA ∧ I ∈ lookup b) :=
          fun hx => hx.1 hn
        have hseen : ¬(I ∉ (processInboxes a pu (lookup a) seen jobs).1 ∧
            ∃ b ∈ rest, b ∉ a :: seenA ∧ I ∈ lookup b) := by
          rintro ⟨hni, _⟩
          exact hni ((processInboxes_mem_fst a pu (lookup a) seen jobs I).mpr
            (Or.inl hn))
        rw [if_neg h1, if_neg h3, if_neg hseen]
      · by_cases hla : I ∈ lookup a
        · have h1 : (I ∉ seen ∧ I ∈ lookup a) := ⟨hn, hla⟩
          have h3 : (I ∉ seen ∧ ∃ b ∈ a :: rest, b ∉ seenA ∧ I ∈ lookup b) :=
            ⟨hn, a, List.mem_cons_self a rest, h, hla⟩
          have hseen : ¬(I ∉ (processInboxes a pu (lookup a) seen jobs).1 ∧
              ∃ b ∈ rest, b ∉ a :: seenA ∧ I ∈ lookup b) := by
            rintro ⟨hni, _⟩
            exact hni ((processInboxes_mem_fst a pu (lookup a) seen jobs I).mpr
              (Or.inr hla))
          rw [if_pos h1, if_pos h3, if_neg hseen]
        · have h1 : ¬(I ∉ seen ∧ I ∈ lookup a) := fun hx => hla hx.2
          have hmemi : I ∈ (processInboxes a pu (lookup a) seen jobs).1 ↔ I ∈ seen := by
            rw [processInboxes_mem_fst]
            constructor
            · rintro (hs | hl)
              · exact hs
              · exact absurd hl hla
            · exact Or.inl
          have hiff : (I ∉ (processInboxes a pu (lookup a) seen jobs).1 ∧
                ∃ b ∈ rest, b ∉ a :: seenA ∧ I ∈ lookup b)
              ↔ (I ∉ seen ∧ ∃ b ∈ a :: rest, b ∉ seenA ∧ I ∈ lookup b) := by
            rw [not_iff_not.mpr hmemi]
            constructor
            · rintro ⟨hnn, b, hb, hbs, hbl⟩
              have hbs2 : b ∉ seenA := fun hm => hbs (List.mem_cons_of_mem a hm)
              exact ⟨hnn, b, List.mem_cons_of_mem a hb, hbs2, hbl⟩
            · rintro ⟨hnn, b, hb, hbs, hbl⟩
              rcases List.mem_cons.mp hb with heq | hb
              · exact absurd (heq ▸ hbl) hla
              · have hba : b ≠ a := fun he => hla (he ▸ hbl)
                have hbn : b ∉ a :: seenA := by
                  intro hm
                  rcases List.mem_cons.mp hm with hx | hx
                  · exact hba hx
                  · exact hbs hx
                exact ⟨hnn, b, hb, hbn, hbl⟩
          rw [if_neg h1, if_congr hiff rfl rfl]
          omega

theorem processTargets_attr (lookup : Actor → List String) (pu : String) :
    ∀ (actors seenA : List Actor) (seen : List String) (jobs : List Delivery) (j : Delivery),
      j ∈ (processTargets lookup pu actors seenA seen jobs).2 →
        j ∈ jobs ∨ (j.post_url = pu ∧ j.inbox ∉ seen ∧
          actors.find? (fun a => !seenA.contains a && (lookup a).contains j.inbox)
            = some j.actor) := by
  intro actors
  induction actors with
  | nil => intro seenA seen jobs j hj; exact Or.inl hj
  | cons a rest ih =>
    intro seenA seen jobs j hj
    by_cases h : a ∈ seenA
    · have hc : seenA.contains a = true := List.elem_iff.mpr h
      simp only [processTargets, hc, if_true] at hj
      rcases ih seenA seen jobs j hj with hl | ⟨hp, hns, hfind⟩
      · exact Or.inl hl
      · have hpa : (!seenA.contains a && (lookup a).contains j.inbox) = false := by
          rw [hc]; rfl
        refine Or.inr ⟨hp, hns, ?_⟩
        rw [List.find?_cons_of_neg rest
          (fun hcontra => by rw [hpa] at hcontra; exact Bool.noConfusion hcontra), hfind]
    · have hc : seenA.contains a = false := by
        simpa using fun hmem => h (List.elem_iff.mp hmem)
      simp only [processTargets, hc, Bool.false_eq_true, if_false] at hj
      rcases ih (a :: seenA) (processInboxes a pu (lookup a) seen jobs).1
          (processInboxes a pu (lookup a) seen jobs).2 j hj with hl | ⟨hp, hns, hfind⟩
      · rcases processInboxes_mem_snd a pu (lookup a) seen jobs j hl
          with hj0 | ⟨ha, hp, hin, hnseen⟩
        · exact Or.inl hj0
        · refine Or.inr ⟨hp, hnseen, ?_⟩
          have hpa : (!seenA.contains a && (lookup a).contains j.inbox) = true := by
            have h1 : (lookup a).contains j.inbox = true := List.elem_iff.mpr hin
            rw [hc, h1]; rfl
          rw [List.find?_cons_of_pos rest hpa, ha]
      · have hns2 := hns
        rw [processInboxes_mem_fst] at hns2
        have hnseen : j.inbox ∉ seen := fun hm => hns2 (Or.inl hm)
        have hnla : j.inbox ∉ lookup a := fun hm => hns2 (Or.inr hm)
        refine Or.inr ⟨hp, hnseen, ?_⟩
        have hpa : (!seenA.contains a && (lookup a).contains j.inbox) = false := by
          have : (lookup a).contains j.inbox = false := by
            simpa using fun hmem => hnla (List.elem_iff.mp hmem)
          rw [this, Bool.and_false]
        rw [List.find?_cons_of_neg rest
          (fun hcontra => by rw [hpa] at hcontra; exact Bool.noConfusion hcontra)]
        rw [← hfind]
        apply find_agree
        intro b hb
        by_cases hba : b = a
        · subst hba
          have h1 : (lookup b).contains j.inbox = false := by
            simpa using fun hmem => hnla (List.elem_iff.mp hmem)
          rw [h1, Bool.and_false, Bool.and_false]
        · have h2 : (a :: seenA).contains b = seenA.contains b := by
            show List.elem b (a :: seenA) = List.elem b seenA
            rw [List.elem_cons]
            rw [beq_false_of_ne hba]
        -- fallthrough handled below
          rw [h2]

theorem backoffGate_iff (st : WorkerState) (now : Nat) :
    backoffGate st now = true ↔
      0 < st.errors ∧ ∃ last, st.last_request = some last ∧
        now - last < 10 * nanosPerSec * st.errors := by
  unfold backoffGate
  cases hl : st.last_request with
  | none =>
    simp [hl]
  | some last =>
    simp only [hl, Bool.and_eq_true, decide_eq_true_eq]
    constructor
    · rintro ⟨he, hd⟩
      exact ⟨he, last, rfl, hd⟩
    · rintro ⟨he, last2, hl2, hd⟩
      cases hl2
      exact ⟨he, hd⟩

theorem processTargetsE_error (lookup : Actor → Except Unit (List String)) (pu : String) :
    ∀ (actors seenA : List Actor) (seen : List String) (jobs : List Delivery),
      (∃ a ∈ actors, lookup a = Except.error ()) →
      (∀ b ∈ seenA, lookup b ≠ Except.error ()) →
      processTargetsE lookup pu actors seenA seen jobs = Except.error () := by
  intro actors
  induction actors with
  | nil =>
    intro seenA seen jobs hex _
    rcases hex with ⟨a, ha, _⟩
    exact absurd ha (List.not_mem_nil a)
  | cons a rest ih =>
    intro seenA seen jobs hex hsa
    by_cases h : a ∈ seenA
    · have hc : seenA.contains a = true := List.elem_iff.mpr h
      simp only [processTargetsE, hc, if_true]
      rcases hex with ⟨b, hb, hbe⟩
      rcases List.mem_cons.mp hb with heq | hb2
      · exact absurd hbe (heq ▸ hsa a h)
      · exact ih seenA seen jobs ⟨b, hb2, hbe⟩ hsa
    · have hc : seenA.contains a = false := by
        simpa using fun hmem => h (List.elem_iff.mp hmem)
      simp only [processTargetsE, hc, Bool.false_eq_true, if_false]
      cases he : lookup a with
      | error e => cases e; rfl
      | ok inboxes =>
        rcases hex with ⟨b, hb, hbe⟩
        rcases List.mem_cons.mp hb with heq | hb2
        · rw [heq, he] at hbe
          exact Except.noConfusion hbe
        · refine ih (a :: seenA) _ _ ⟨b, hb2, hbe⟩ ?_
          intro c hc2
          rcases List.mem_cons.mp hc2 with heq2 | hc3
          · subst heq2
            intro hcontra
            rw [he] at hcontra
            exact Except.noConfusion hcontra
          · exact hsa c hc3

theorem processTargets_fst_nil_iff (lookup : Actor → List String) (pu : String)
    (actors : List Actor) :
    (processTargets lookup pu actors [] [] []).1 = [] ↔
      ∀ a ∈ actors, lookup a = [] := by
  constructor
  · intro hnil a ha
    by_contra hne
    rcases List.exists_mem_of_ne_nil (lookup a) hne with ⟨I, hI⟩
    have hmem : I ∈ (processTargets lookup pu actors [] [] []).1 :=
      (processTargets_mem_fst lookup pu actors [] [] [] I).mpr
        (Or.inr ⟨a, ha, List.not_mem_nil a, hI⟩)
    rw [hnil] at hmem
    exact List.not_mem_nil I hmem
  · intro hall
    rw [List.eq_nil_iff_forall_not_mem]
    intro I hI
    rcases (processTargets_mem_fst lookup pu actors [] [] [] I).mp hI
      with hs | ⟨a, ha, _, hla⟩
    · exact List.not_mem_nil I hs
    · rw [hall a ha] at hla
      exact List.not_mem_nil I hla

/-! ### Claim theorems -/

/-- C8: for every notification with a url, the Post Resolver emits
`InstanceRelay(domain)` first (only when domain extraction succeeds),
followed by one `HashtagRelay` per tag name in the input order of the tags
sequence, with no deduplication at this stage: `relay_target_kinds`
coincides with the spec-side description `specResolverTargets` (which keeps
duplicates, being a plain `map` over the tag list). -/
theorem resolver_order_no_dedup (urlDomain : String → Option String) (p : Post) :
    p.relay_target_kinds urlDomain
      = specResolverTargets (p.host urlDomain) p.tagNames := by
  cases hd : p.host urlDomain with
  | none =>
    simp [Post.relay_target_kinds, specResolverTargets, ActorKind.from_tag, hd]
  | some d =>
    simp [Post.relay_target_kinds, specResolverTargets, ActorKind.from_tag, hd]

/-- C5 counterexample: a notification with `url` absent and one tag makes
the Post Resolver (`relay_target_kinds`, the claim's cited symbol) emit a
`HashtagRelay` target, so its sequence of relay identities is NOT empty —
the claim that it is empty regardless of tags is false. -/
theorem resolver_url_absent_cex :
    (Post.mk none "u" (some [Tag.mk "x"])).relay_target_kinds (fun _ => none)
      ≠ [] := by
  decide

/-- C5 (amended): for a notification with `url` absent, the dispatcher skips
it (incrementing only the `skip` counter) before ever invoking the resolver,
so zero relay targets are processed and zero jobs are produced; the resolver
function itself emits no `InstanceRelay` target but still one `HashtagRelay`
per tag. -/
theorem url_absent_skipped_zero_targets (urlDomain : String → Option String)
    (lookup : Actor → List String) (hostname : String) (p : Post)
    (h : p.url = none) :
    processPost urlDomain lookup hostname p = (["skip"], [])
    ∧ p.relay_target_kinds urlDomain
        = p.tagNames.map (fun s => ActorKind.from_tag s) := by
  constructor
  · simp [processPost, h]
  · simp [Post.relay_target_kinds, Post.host, h]

/-- Witness for C5 (amended) at a concrete url-less notification carrying
one tag. -/
theorem url_absent_skipped_zero_targets_witness :
    processPost (fun _ => none) (fun _ => []) "h"
        (Post.mk none "u" (some [Tag.mk "x"])) = (["skip"], [])
    ∧ (Post.mk none "u" (some [Tag.mk "x"])).relay_target_kinds (fun _ => none)
        = (Post.mk none "u" (some [Tag.mk "x"])).tagNames.map
            (fun s => ActorKind.from_tag s) :=
  url_absent_skipped_zero_targets (fun _ => none) (fun _ => []) "h"
    (Post.mk none "u" (some [Tag.mk "x"])) rfl

/-- C6: the Announce activity body the dispatcher constructs, read back as a
JSON object, has `@context` equal to the ActivityStreams context, `type`
equal to `Announce`, `actor` equal to the identity URI, `to` equal to the
one-element public-collection list, `object` equal to the post uri and `id`
equal to the post url. -/
theorem announce_body_fields (actor_id postUri postUrl : String) :
    (announceBody actor_id postUri postUrl).getField "@context"
        = some (Json.str "https://www.w3.org/ns/activitystreams")
    ∧ (announceBody actor_id postUri postUrl).getField "type"
        = some (Json.str "Announce")
    ∧ (announceBody actor_id postUri postUrl).getField "actor"
        = some (Json.str actor_id)
    ∧ (announceBody actor_id postUri postUrl).getField "to"
        = some (Json.arr
            [Json.str "https://www.w3.org/ns/activitystreams#Public"])
    ∧ (announceBody actor_id postUri postUrl).getField "object"
        = some (Json.str postUri)
    ∧ (announceBody actor_id postUri postUrl).getField "id"
        = some (Json.str postUrl) :=
  ⟨rfl, rfl, rfl, rfl, rfl, rfl⟩

/-- C9: when the backoff gate fires, the worker state is unchanged — the
error counter keeps its value and `last_request` keeps the timestamp of the
last actual delivery attempt — and no delivery is attempted, so the backoff
window stays measured from the last attempted delivery. -/
theorem backoff_drop_leaves_state (st : WorkerState) (now : Nat) (sendOk : Bool)
    (h : 0 < st.errors ∧ ∃ last, st.last_request = some last ∧
      now - last < 10 * nanosPerSec * st.errors) :
    (workerStep st now sendOk).1.errors = st.errors
    ∧ (workerStep st now sendOk).1.last_request = st.last_request
    ∧ (workerStep st now sendOk).2 = false := by
  have hg : backoffGate st now = true := (backoffGate_iff st now).mpr h
  simp [workerStep, hg]

/-- Witness for C9: with two consecutive errors and a job arriving 19
seconds after the last attempt, the state survives untouched and nothing is
attempted. -/
theorem backoff_drop_leaves_state_witness :
    (workerStep (WorkerState.mk 2 (some 100)) (100 + 19 * nanosPerSec) true).1.errors
        = (WorkerState.mk 2 (some 100)).errors
    ∧ (workerStep (WorkerState.mk 2 (some 100)) (100 + 19 * nanosPerSec) true).1.last_request
        = (WorkerState.mk 2 (some 100)).last_request
    ∧ (workerStep (WorkerState.mk 2 (some 100)) (100 + 19 * nanosPerSec) true).2 = false :=
  backoff_drop_leaves_state (WorkerState.mk 2 (some 100)) (100 + 19 * nanosPerSec) true
    ⟨by decide, 100, rfl, by norm_num [nanosPerSec]⟩

/-- C3: a job arriving at `now` is dropped with no attempt and no state
change exactly when `errorCount > 0`, `lastAttempt` is set and
`now - lastAttempt < 10 s × errorCount`; otherwise `lastAttempt` becomes
`now` and the delivery is attempted, a failure saturating-incrementing the
error counter and a success resetting it to 0. -/
theorem worker_backoff_step (st : WorkerState) (now : Nat) (sendOk : Bool) :
    ((0 < st.errors ∧ ∃ last, st.last_request = some last ∧
        now - last < 10 * nanosPerSec * st.errors) →
      workerStep st now sendOk = (st, false))
    ∧ (¬(0 < st.errors ∧ ∃ last, st.last_request = some last ∧
        now - last < 10 * nanosPerSec * st.errors) →
      (workerStep st now sendOk).2 = true
      ∧ (workerStep st now sendOk).1.last_request = some now
      ∧ (sendOk = true → (workerStep st now sendOk).1.errors = 0)
      ∧ (sendOk = false →
          (workerStep st now sendOk).1.errors = min (st.errors + 1) u32Max)) := by
  constructor
  · intro h
    have hg : backoffGate st now = true := (backoffGate_iff st now).mpr h
    simp [workerStep, hg]
  · intro h
    have hg : backoffGate st now = false := by
      cases hgb : backoffGate st now with
      | false => rfl
      | true => exact absurd ((backoffGate_iff st now).mp hgb) h
    cases sendOk with
    | true => simp [workerStep, hg]
    | false => simp [workerStep, hg]

/-- Witness for C3: with three consecutive errors, a job 29 seconds after
the last attempt is dropped; a job at a fresh worker is attempted and a
failure sets the counter to `min 1 u32Max`. -/
theorem worker_backoff_step_witness :
    workerStep (WorkerState.mk 3 (some 0)) (29 * nanosPerSec) true
        = (WorkerState.mk 3 (some 0), false)
    ∧ (workerStep (WorkerState.mk 0 none) 5 false).2 = true
    ∧ (workerStep (WorkerState.mk 0 none) 5 false).1.last_request = some 5
    ∧ (workerStep (WorkerState.mk 0 none) 5 false).1.errors
        = min ((WorkerState.mk 0 none).errors + 1) u32Max :=
  ⟨(worker_backoff_step (WorkerState.mk 3 (some 0)) (29 * nanosPerSec) true).1
      ⟨by decide, 0, rfl, by norm_num [nanosPerSec]⟩,
   ((worker_backoff_step (WorkerState.mk 0 none) 5 false).2
      (by rintro ⟨h0, -⟩; exact absurd h0 (by decide))).1,
   ((worker_backoff_step (WorkerState.mk 0 none) 5 false).2
      (by rintro ⟨h0, -⟩; exact absurd h0 (by decide))).2.1,
   ((worker_backoff_step (WorkerState.mk 0 none) 5 false).2
      (by rintro ⟨h0, -⟩; exact absurd h0 (by decide))).2.2.2 rfl⟩

/-- C10: a payload whose `tags` field is entirely absent still deserializes
into a `Post` with `tags = None`, which is treated as having zero tags and
yields no `HashtagRelay` targets. -/
theorem tags_absent_parses (fields : List (String × Json)) (u : String)
    (ou : Option String)
    (hnd : (fields.map Prod.fst).Nodup)
    (hurl : parseOptStrField (jsonLookup fields "url") = some ou)
    (huri : jsonLookup fields "uri" = some (Json.str u))
    (htags : jsonLookup fields "tags" = none) :
    parsePost (Json.obj fields) = some (Post.mk ou u none)
    ∧ (Post.mk ou u none).tagNames = []
    ∧ ∀ (urlDomain : String → Option String) (t : String),
        ActorKind.HashtagRelay t
          ∉ (Post.mk ou u none).relay_target_kinds urlDomain := by
  refine ⟨?_, rfl, ?_⟩
  · simp [parsePost, hnd, hurl, huri, htags, parseStrField, parseTagsField]
  · intro urlDomain t hmem
    simp only [Post.relay_target_kinds, Post.tagNames, List.map_nil,
      List.append_nil] at hmem
    rcases List.mem_map.mp hmem with ⟨d, _, hd⟩
    exact ActorKind.noConfusion hd

/-- Witness for C10 at the object with only a `uri` field. -/
theorem tags_absent_parses_witness :
    parsePost (Json.obj [("uri", Json.str "u")]) = some (Post.mk none "u" none)
    ∧ (Post.mk none "u" none).tagNames = []
    ∧ ∀ (urlDomain : String → Option String) (t : String),
        ActorKind.HashtagRelay t
          ∉ (Post.mk none "u" none).relay_target_kinds urlDomain :=
  tags_absent_parses [("uri", Json.str "u")] "u" none (by simp) rfl rfl rfl

/-- C1: for a notification whose resolved identities' follower sets overlap
on an inbox `I` (that is, `I` is in the expansion of at least one resolved
identity), the dispatcher produces exactly one `DeliveryJob` for `I`, and
that job comes from the first identity in resolution order whose expansion
contains `I`; every later occurrence of `I` is skipped by the
per-notification seen-inbox set. -/
theorem fanout_unique_job_per_inbox (urlDomain : String → Option String)
    (lookup : Actor → List String) (hostname : String) (p : Post)
    (url I : String)
    (hurl : p.url = some url)
    (hex : ∃ a ∈ p.relay_targets urlDomain hostname, I ∈ lookup a) :
    ((processPost urlDomain lookup hostname p).2.countP
        (fun j => j.inbox == I) = 1)
    ∧ ∀ j ∈ (processPost urlDomain lookup hostname p).2, j.inbox = I →
        (p.relay_targets urlDomain hostname).find?
          (fun a => (lookup a).contains I) = some j.actor := by
  have hpp : (processPost urlDomain lookup hostname p).2
      = (processTargets lookup url (p.relay_targets urlDomain hostname)
          [] [] []).2 := by
    simp [processPost, hurl]
  constructor
  · rw [hpp, processTargets_countP]
    have hcond : (I ∉ ([] : List String)
        ∧ ∃ a ∈ p.relay_targets urlDomain hostname,
            a ∉ ([] : List Actor) ∧ I ∈ lookup a) := by
      rcases hex with ⟨a, ha, hla⟩
      exact ⟨List.not_mem_nil I, a, ha, List.not_mem_nil a, hla⟩
    rw [if_pos hcond]
    simp
  · intro j hj hji
    rw [hpp] at hj
    rcases processTargets_attr lookup url (p.relay_targets urlDomain hostname)
        [] [] [] j hj with hin | ⟨_, _, hfind⟩
    · exact absurd hin (List.not_mem_nil j)
    · have heq : ∀ b ∈ p.relay_targets urlDomain hostname,
          (!([] : List Actor).contains b && (lookup b).contains j.inbox)
            = (lookup b).contains I := by
        intro b _
        rw [hji]
        rfl
      rw [← find_agree (p.relay_targets urlDomain hostname) heq]
      exact hfind

/-- Witness for C1 at a notification resolving to two hashtag identities
whose follower sets are the same single inbox. -/
theorem fanout_unique_job_per_inbox_witness :
    ((processPost (fun _ => none) (fun _ => ["i"]) "h"
        (Post.mk (some "pu") "uri" (some [Tag.mk "t1", Tag.mk "t2"]))).2.countP
        (fun j => j.inbox == "i") = 1)
    ∧ ∀ j ∈ (processPost (fun _ => none) (fun _ => ["i"]) "h"
        (Post.mk (some "pu") "uri" (some [Tag.mk "t1", Tag.mk "t2"]))).2,
        j.inbox = "i" →
        ((Post.mk (some "pu") "uri"
            (some [Tag.mk "t1", Tag.mk "t2"])).relay_targets
            (fun _ => none) "h").find?
          (fun a => ((fun (_ : Actor) => ["i"]) a).contains "i")
            = some j.actor :=
  fanout_unique_job_per_inbox (fun _ => none) (fun _ => ["i"]) "h"
    (Post.mk (some "pu") "uri" (some [Tag.mk "t1", Tag.mk "t2"])) "pu" "i" rfl
    ⟨Actor.mk "h" (ActorKind.HashtagRelay "t1"), by decide, by decide⟩

/-- C2 counterexample: a notification resolving to two distinct hashtag
identities, with an inbox following both, has two distinct
(identity, inbox) pairs in its expansion — yet the dispatcher produces only
one job in total, not one per pair: the seen-inbox set dedups across
identities. -/
theorem job_per_identity_inbox_pair_cex :
    ((Post.mk (some "pu") "uri"
        (some [Tag.mk "t1", Tag.mk "t2"])).relay_targets
          (fun _ => none) "h").length = 2
    ∧ ((Post.mk (some "pu") "uri"
        (some [Tag.mk "t1", Tag.mk "t2"])).relay_targets
          (fun _ => none) "h").Nodup
    ∧ (∀ a ∈ (Post.mk (some "pu") "uri"
        (some [Tag.mk "t1", Tag.mk "t2"])).relay_targets (fun _ => none) "h",
        "i" ∈ (fun (_ : Actor) => ["i"]) a)
    ∧ (processPost (fun _ => none) (fun (_ : Actor) => ["i"]) "h"
        (Post.mk (some "pu") "uri"
          (some [Tag.mk "t1", Tag.mk "t2"]))).2.length = 1 := by
  refine ⟨rfl, by decide, by decide, rfl⟩

/-- C2 (amended): per processed notification, each distinct inbox in the
resolved-identity-to-follower-inbox expansion yields exactly one
`DeliveryJob`, routed to that inbox's worker; an inbox following two
distinct resolved identities receives a single job (attributed to the first
such identity), not one per pair. -/
theorem fanout_one_job_per_distinct_inbox (urlDomain : String → Option String)
    (lookup : Actor → List String) (hostname : String) (p : Post) (url : String)
    (hurl : p.url = some url) :
    ((processPost urlDomain lookup hostname p).2.map Delivery.inbox).Nodup
    ∧ ∀ I : String,
        (∃ j ∈ (processPost urlDomain lookup hostname p).2, j.inbox = I)
          ↔ ∃ a ∈ p.relay_targets urlDomain hostname, I ∈ lookup a := by
  have hpp : (processPost urlDomain lookup hostname p).2
      = (processTargets lookup url (p.relay_targets urlDomain hostname)
          [] [] []).2 := by
    simp [processPost, hurl]
  have hcount : ∀ I : String,
      (processPost urlDomain lookup hostname p).2.countP (fun j => j.inbox == I)
        = if I ∉ ([] : List String)
            ∧ ∃ a ∈ p.relay_targets urlDomain hostname,
                a ∉ ([] : List Actor) ∧ I ∈ lookup a then 1 else 0 := by
    intro I
    rw [hpp, processTargets_countP]
    simp
  constructor
  · rw [List.nodup_iff_count_le_one]
    intro I
    rw [List.count_eq_countP, List.countP_map]
    have : (fun x => x == I) ∘ Delivery.inbox = fun j : Delivery => j.inbox == I :=
      rfl
    rw [this, hcount I]
    split
    · exact le_refl 1
    · exact Nat.zero_le 1
  · intro I
    constructor
    · rintro ⟨j, hj, hji⟩
      have hpos : 0 < (processPost urlDomain lookup hostname p).2.countP
          (fun j => j.inbox == I) :=
        List.countP_pos_iff.mpr ⟨j, hj, by simp [hji]⟩
      rw [hcount I] at hpos
      by_contra hne
      rw [if_neg (fun hx => hne (by
        rcases hx with ⟨-, a, ha, -, hla⟩
        exact ⟨a, ha, hla⟩))] at hpos
      exact Nat.lt_irrefl 0 hpos
    · rintro ⟨a, ha, hla⟩
      have h1 : (processPost urlDomain lookup hostname p).2.countP
          (fun j => j.inbox == I) = 1 := by
        rw [hcount I, if_pos ⟨List.not_mem_nil I, a, ha, List.not_mem_nil a, hla⟩]
      have hpos : 0 < (processPost urlDomain lookup hostname p).2.countP
          (fun j => j.inbox == I) := by rw [h1]; exact Nat.one_pos
      rcases List.countP_pos_iff.mp hpos with ⟨j, hj, hjI⟩
      exact ⟨j, hj, by simpa using hjI⟩

/-- Witness for C2 (amended) at a scenario where two identities expand to
overlapping inbox sets. -/
theorem fanout_one_job_per_distinct_inbox_witness :
    ((processPost (fun _ => some "a.example")
        (fun a => if a.kind = ActorKind.InstanceRelay "a.example"
          then ["i1", "i2"] else ["i2", "i3"]) "h"
        (Post.mk (some "pu") "uri" (some [Tag.mk "t"]))).2.map
          Delivery.inbox).Nodup
    ∧ ∀ I : String,
        (∃ j ∈ (processPost (fun _ => some "a.example")
          (fun a => if a.kind = ActorKind.InstanceRelay "a.example"
            then ["i1", "i2"] else ["i2", "i3"]) "h"
          (Post.mk (some "pu") "uri" (some [Tag.mk "t"]))).2, j.inbox = I)
          ↔ ∃ a ∈ (Post.mk (some "pu") "uri"
              (some [Tag.mk "t"])).relay_targets (fun _ => some "a.example") "h",
              I ∈ (if a.kind = ActorKind.InstanceRelay "a.example"
                then ["i1", "i2"] else ["i2", "i3"]) :=
  fanout_one_job_per_distinct_inbox (fun _ => some "a.example")
    (fun a => if a.kind = ActorKind.InstanceRelay "a.example"
      then ["i1", "i2"] else ["i2", "i3"]) "h"
    (Post.mk (some "pu") "uri" (some [Tag.mk "t"])) "pu" rfl

/-- C4: if the follower lookup returns an error for any resolved identity of
a notification with a url, the whole dispatcher stream loop dies with that
error — no output is produced for this or any later notification,
whatever the rest of the stream holds. -/
theorem lookup_error_kills_dispatcher (urlDomain : String → Option String)
    (lookup : Actor → Except Unit (List String)) (hostname : String)
    (j : Json) (p : Post) (url : String) (qs : List Json)
    (hparse : parsePost j = some p) (hurl : p.url = some url)
    (hex : ∃ a ∈ p.relay_targets urlDomain hostname,
      lookup a = Except.error ()) :
    processStreamE urlDomain lookup hostname (j :: qs) = Except.error () := by
  have herr : processTargetsE lookup url (p.relay_targets urlDomain hostname)
      [] [] [] = Except.error () :=
    processTargetsE_error lookup url (p.relay_targets urlDomain hostname)
      [] [] [] hex (fun b hb => absurd hb (List.not_mem_nil b))
  have hpost : processPostE urlDomain lookup hostname p = Except.error () := by
    simp [processPostE, hurl, herr, Except.map]
  simp [processStreamE, hparse, hpost]

/-- Witness for C4: a stream of two well-formed notifications over an
always-failing follower store errors out on the first one, and the second is
never processed. -/
theorem lookup_error_kills_dispatcher_witness :
    processStreamE (fun _ => none)
      (fun (_ : Actor) => (Except.error () : Except Unit (List String))) "h"
      [Json.obj [("uri", Json.str "u"), ("url", Json.str "x"),
        ("tags", Json.arr [Json.obj [("name", Json.str "t")]])],
       Json.obj [("uri", Json.str "v")]] = Except.error () :=
  lookup_error_kills_dispatcher (fun _ => none)
    (fun _ => Except.error ()) "h"
    (Json.obj [("uri", Json.str "u"), ("url", Json.str "x"),
      ("tags", Json.arr [Json.obj [("name", Json.str "t")]])])
    (Post.mk (some "x") "u" (some [Tag.mk "t"])) "x"
    [Json.obj [("uri", Json.str "v")]] rfl rfl
    ⟨Actor.mk "h" (ActorKind.HashtagRelay "t"), by decide, rfl⟩

/-- C7: every successfully parsed notification increments exactly one
outcome counter: `skip` iff the url is absent, `no_relay` iff the url is
present but the deduplicated inbox set collected across all resolved
identities is empty (every identity's expansion is empty), and `relay` iff
at least one inbox was collected. -/
theorem outcome_counter_exactly_one (urlDomain : String → Option String)
    (lookup : Actor → List String) (hostname : String) (p : Post) :
    ((processPost urlDomain lookup hostname p).1.length = 1)
    ∧ ((processPost urlDomain lookup hostname p).1 = ["skip"] ↔ p.url = none)
    ∧ ((processPost urlDomain lookup hostname p).1 = ["no_relay"]
        ↔ p.url ≠ none
          ∧ ∀ a ∈ p.relay_targets urlDomain hostname, lookup a = [])
    ∧ ((processPost urlDomain lookup hostname p).1 = ["relay"]
        ↔ p.url ≠ none
          ∧ ∃ a ∈ p.relay_targets urlDomain hostname, lookup a ≠ []) := by
  cases hurl : p.url with
  | none =>
    refine ⟨by simp [processPost, hurl], by simp [processPost, hurl], ?_, ?_⟩
    · simp only [processPost, hurl]
      constructor
      · intro hcontra
        exact absurd hcontra (by decide)
      · rintro ⟨hne, -⟩
        exact absurd rfl hne
    · simp only [processPost, hurl]
      constructor
      · intro hcontra
        exact absurd hcontra (by decide)
      · rintro ⟨hne, -⟩
        exact absurd rfl hne
  | some url =>
    have hnil : (processTargets lookup url (p.relay_targets urlDomain hostname)
          [] [] []).1 = []
        ↔ ∀ a ∈ p.relay_targets urlDomain hostname, lookup a = [] :=
      processTargets_fst_nil_iff lookup url (p.relay_targets urlDomain hostname)
    by_cases he : (processTargets lookup url
        (p.relay_targets urlDomain hostname) [] [] []).1 = []
    · have hie : (processTargets lookup url
          (p.relay_targets urlDomain hostname) [] [] []).1.isEmpty = true :=
        List.isEmpty_iff.mpr he
      have hcnt : (processPost urlDomain lookup hostname p).1 = ["no_relay"] := by
        simp [processPost, hurl, hie]
      refine ⟨by rw [hcnt]; rfl, ?_, ?_, ?_⟩
      · rw [hcnt]
        constructor
        · intro hcontra
          exact absurd hcontra (by decide)
        · intro hcontra
          exact Option.noConfusion hcontra
      · rw [hcnt]
        constructor
        · intro _
          exact ⟨fun hc => Option.noConfusion hc, hnil.mp he⟩
        · intro _
          rfl
      · rw [hcnt]
        constructor
        · intro hcontra
          exact absurd hcontra (by decide)
        · rintro ⟨-, a, ha, hne⟩
          exact absurd (hnil.mp he a ha) hne
    · have hie : (processTargets lookup url
          (p.relay_targets urlDomain hostname) [] [] []).1.isEmpty = false := by
        cases hcase : (processTargets lookup url
            (p.relay_targets urlDomain hostname) [] [] []).1.isEmpty with
        | false => rfl
        | true => exact absurd (List.isEmpty_iff.mp hcase) he
      have hcnt : (processPost urlDomain lookup hostname p).1 = ["relay"] := by
        simp [processPost, hurl, hie]
      have hexa : ∃ a ∈ p.relay_targets urlDomain hostname, lookup a ≠ [] := by
        by_contra hcontra
        push_neg at hcontra
        exact he (hnil.mpr hcontra)
      refine ⟨by rw [hcnt]; rfl, ?_, ?_, ?_⟩
      · rw [hcnt]
        constructor
        · intro hcontra
          exact absurd hcontra (by decide)
        · intro hcontra
          exact Option.noConfusion hcontra
      · rw [hcnt]
        constructor
        · intro hcontra
          exact absurd hcontra (by decide)
        · rintro ⟨-, hall⟩
          exact absurd (hnil.mpr hall) he
      · rw [hcnt]
        constructor
        · intro _
          exact ⟨fun hc => Option.noConfusion hc, hexa⟩
        · intro _
          rfl

/-- Witness for C7 at a concrete tagged notification whose outcome is
`relay`. -/
theorem outcome_counter_exactly_one_witness :
    ((processPost (fun _ => none) (fun _ => ["i"]) "h"
        (Post.mk (some "pu") "uri" (some [Tag.mk "t"]))).1.length = 1)
    ∧ ((processPost (fun _ => none) (fun _ => ["i"]) "h"
        (Post.mk (some "pu") "uri" (some [Tag.mk "t"]))).1 = ["skip"]
        ↔ (Post.mk (some "pu") "uri" (some [Tag.mk "t"])).url = none)
    ∧ ((processPost (fun _ => none) (fun _ => ["i"]) "h"
        (Post.mk (some "pu") "uri" (some [Tag.mk "t"]))).1 = ["no_relay"]
        ↔ (Post.mk (some "pu") "uri" (some [Tag.mk "t"])).url ≠ none
          ∧ ∀ a ∈ (Post.mk (some "pu") "uri"
              (some [Tag.mk "t"])).relay_targets (fun _ => none) "h",
              (fun (_ : Actor) => ["i"]) a = [])
    ∧ ((processPost (fun _ => none) (fun _ => ["i"]) "h"
        (Post.mk (some "pu") "uri" (some [Tag.mk "t"]))).1 = ["relay"]
        ↔ (Post.mk (some "pu") "uri" (some [Tag.mk "t"])).url ≠ none
          ∧ ∃ a ∈ (Post.mk (some "pu") "uri"
              (some [Tag.mk "t"])).relay_targets (fun _ => none) "h",
              (fun (_ : Actor) => ["i"]) a ≠ []) :=
  outcome_counter_exactly_one (fun _ => none) (fun _ => ["i"]) "h"
    (Post.mk (some "pu") "uri" (some [Tag.mk "t"]))

end Buzzrelay
